import Mathlib

/-!
Verification of the record unification engine and the compatibility filter of
BoneMarrowTransplantApp.c.

Modelling conventions:
- C strings (char arrays) are modelled as List Char; strcmp is modelled by the
  function strcmp below, comparing character codes, with the shorter string
  smaller when one is a proper prefix of the other.
- A person record (struct person) is the structure Person; the five gene
  fields genes[0..4] are the fields g1..g5.
- An input stream is the list of records that fscanf successively parses from
  it until the first failed parse (a failed parse makes the merge treat the
  stream as exhausted, so later bytes are unobservable).
- The merge (createDatabase) is a fuelled loop over a state; writes to the
  output file are recorded as trace entries carrying the winning unit index,
  whether the record was written or dropped as a duplicate, and whether the
  separating space between the name column and the id column was omitted.
- The fixed-capacity buffers of the C code (processedIDs, MAX_UNITS rows, and
  the donors buffer of MAX_PERSONS entries) are modelled as lists together
  with a Boolean flag that is set when the C code would have written past the
  buffer capacity.
-/

def MAX_PERSONS : Nat := 1000

def MAX_UNITS : Nat := 100

/-- C isdigit restricted to the byte range used here: 48..57. -/
def isDigitChar (c : Char) : Bool := 48 ≤ c.toNat && c.toNat ≤ 57

/-- C isspace in the default locale: space, tab, newline, vertical tab,
form feed, carriage return. -/
def isSpaceChar (c : Char) : Bool :=
  c == ' ' || c == '\t' || c == '\n' || c == '\x0b' || c == '\x0c' || c == '\r'

/-- C strcmp on character lists: first differing character code decides;
a proper prefix is smaller (the terminating null of the shorter string
compares below any further character). -/
def strcmp : List Char → List Char → Ordering
  | [], [] => Ordering.eq
  | [], _ :: _ => Ordering.lt
  | _ :: _, [] => Ordering.gt
  | a :: as, b :: bs =>
    if a.toNat < b.toNat then Ordering.lt
    else if b.toNat < a.toNat then Ordering.gt
    else strcmp as bs

/-- Non-strict comparison derived from strcmp, as used by the spec statement
that output names are non-decreasing. -/
def sLe (a b : List Char) : Prop := strcmp a b ≠ Ordering.gt

instance (a b : List Char) : Decidable (sLe a b) :=
  inferInstanceAs (Decidable (strcmp a b ≠ Ordering.gt))

theorem charToNat_inj {a b : Char} (h : a.toNat = b.toNat) : a = b :=
  Char.ext (UInt32.ext h)

theorem strcmp_self (a : List Char) : strcmp a a = Ordering.eq := by
  induction a with
  | nil => rfl
  | cons c r ih => simp [strcmp, ih]

theorem strcmp_eq_iff {a b : List Char} : strcmp a b = Ordering.eq ↔ a = b := by
  constructor
  · intro h
    induction a generalizing b with
    | nil => cases b with
      | nil => rfl
      | cons c r => simp [strcmp] at h
    | cons c r ih =>
      cases b with
      | nil => simp [strcmp] at h
      | cons d s =>
        by_cases h1 : c.toNat < d.toNat
        · simp [strcmp, h1] at h
        · by_cases h2 : d.toNat < c.toNat
          · simp [strcmp, h1, h2] at h
          · have hcd : c = d := charToNat_inj (Nat.le_antisymm (Nat.le_of_not_lt h2) (Nat.le_of_not_lt h1))
            have : strcmp r s = Ordering.eq := by simpa [strcmp, h1, h2] using h
            rw [hcd, ih this]
  · intro h; subst h; exact strcmp_self a

theorem strcmp_lt_gt {a b : List Char} : strcmp a b = Ordering.lt ↔ strcmp b a = Ordering.gt := by
  induction a generalizing b with
  | nil => cases b <;> simp [strcmp]
  | cons c r ih =>
    cases b with
    | nil => simp [strcmp]
    | cons d s =>
      by_cases h1 : c.toNat < d.toNat
      · have h2 : ¬ d.toNat < c.toNat := Nat.lt_asymm h1
        simp [strcmp, h1, h2]
      · by_cases h2 : d.toNat < c.toNat
        · simp [strcmp, h1, h2]
        · simp [strcmp, h1, h2, ih]

theorem strcmp_lt_trans {a b c : List Char} (hab : strcmp a b = Ordering.lt)
    (hbc : strcmp b c = Ordering.lt) : strcmp a c = Ordering.lt := by
  induction a generalizing b c with
  | nil =>
    cases c with
    | nil =>
      cases b with
      | nil => exact hab
      | cons d s => simp [strcmp] at hbc
    | cons e t => simp [strcmp]
  | cons x r ih =>
    cases b with
    | nil => simp [strcmp] at hab
    | cons y s =>
      cases c with
      | nil => simp [strcmp] at hbc
      | cons z t =>
        by_cases h1 : x.toNat < y.toNat
        · by_cases h3 : y.toNat < z.toNat
          · have : x.toNat < z.toNat := Nat.lt_trans h1 h3
            simp [strcmp, this]
          · by_cases h4 : z.toNat < y.toNat
            · simp [strcmp, h3, h4] at hbc
            · have hyz : y.toNat = z.toNat := Nat.le_antisymm (Nat.le_of_not_lt h4) (Nat.le_of_not_lt h3)
              have : x.toNat < z.toNat := hyz ▸ h1
              simp [strcmp, this]
        · by_cases h2 : y.toNat < x.toNat
          · simp [strcmp, h1, h2] at hab
          · have hxy : x.toNat = y.toNat := Nat.le_antisymm (Nat.le_of_not_lt h2) (Nat.le_of_not_lt h1)
            have hab' : strcmp r s = Ordering.lt := by simpa [strcmp, h1, h2] using hab
            by_cases h3 : y.toNat < z.toNat
            · have : x.toNat < z.toNat := hxy ▸ h3
              simp [strcmp, this]
            · by_cases h4 : z.toNat < y.toNat
              · simp [strcmp, h3, h4] at hbc
              · have hbc' : strcmp s t = Ordering.lt := by simpa [strcmp, h3, h4] using hbc
                have hxz1 : ¬ x.toNat < z.toNat := by
                  have hyz : y.toNat = z.toNat := Nat.le_antisymm (Nat.le_of_not_lt h4) (Nat.le_of_not_lt h3)
                  omega
                have hxz2 : ¬ z.toNat < x.toNat := by
                  have hyz : y.toNat = z.toNat := Nat.le_antisymm (Nat.le_of_not_lt h4) (Nat.le_of_not_lt h3)
                  omega
                simp [strcmp, hxz1, hxz2, ih hab' hbc']

theorem sLe_refl (a : List Char) : sLe a a := by
  simp [sLe, strcmp_self]

theorem sLe_of_lt {a b : List Char} (h : strcmp a b = Ordering.lt) : sLe a b := by
  simp [sLe, h]

theorem sLe_trans {a b c : List Char} (hab : sLe a b) (hbc : sLe b c) : sLe a c := by
  unfold sLe at *
  cases hab' : strcmp a b with
  | eq => rw [strcmp_eq_iff.mp hab']; exact hbc
  | gt => exact absurd hab' hab
  | lt =>
    cases hbc' : strcmp b c with
    | eq => rw [← strcmp_eq_iff.mp hbc']; simp [hab']
    | gt => exact absurd hbc' hbc
    | lt => simp [strcmp_lt_trans hab' hbc']

theorem sLe_of_not_lt {a b : List Char} (h : ¬ strcmp a b = Ordering.lt) : sLe b a := by
  unfold sLe
  cases hab : strcmp a b with
  | eq => rw [strcmp_eq_iff.mp hab]; simp [strcmp_self]
  | lt => exact absurd hab h
  | gt =>
    intro hba
    exact absurd (strcmp_lt_gt.mpr hab) (by simp [hba])

/-- struct person of the C source: name, id, and the five gene code fields
genes[0], ..., genes[4]. -/
structure Person where
  name : List Char
  id : List Char
  g1 : List Char
  g2 : List Char
  g3 : List Char
  g4 : List Char
  g5 : List Char
deriving DecidableEq, Repr

/-- The genes array of a record in positional order. -/
def genes (p : Person) : List (List Char) := [p.g1, p.g2, p.g3, p.g4, p.g5]

/-- comparePersons: strcmp on the two names. -/
def comparePersons (a b : Person) : Ordering := strcmp a.name b.name

/-- Name comparison used for sortedness statements: the name of the first
record is not strictly greater than the name of the second. -/
def personLe (a b : Person) : Prop := comparePersons a b ≠ Ordering.gt

instance (a b : Person) : Decidable (personLe a b) :=
  inferInstanceAs (Decidable (comparePersons a b ≠ Ordering.gt))

/-- countGeneMatches: number of the five gene positions where the donor gene
equals the patient gene under strcmp. -/
def countGeneMatches (donor patient : Person) : Nat :=
  (((genes donor).zip (genes patient)).filter
    (fun x => strcmp x.1 x.2 == Ordering.eq)).length

/-- isDuplicate: linear scan of the processed id list with strcmp. -/
def isDuplicate (id : List Char) (processedIDs : List (List Char)) : Bool :=
  processedIDs.any (fun q => strcmp id q == Ordering.eq)

/-- The index-tracking loop of cleanName: walks the name, stops at the first
digit, and remembers the index of the last non-space character seen
(lastCharIndex in the C source, with none standing for -1). -/
def cleanGo : List Char → Option Nat → Nat → Option Nat
  | [], last, _ => last
  | c :: rest, last, i =>
    if isDigitChar c then last
    else cleanGo rest (if isSpaceChar c then last else some i) (i + 1)

/-- cleanName: the name truncated just after the last non-space character
that precedes the first digit (everything from the first digit on, and any
trailing whitespace before it, is discarded; an all-space or digit-leading
name becomes empty). -/
def cleanName (name : List Char) : List Char :=
  match cleanGo name none 0 with
  | none => []
  | some k => name.take (k + 1)

/-- Remove the maximal run of trailing whitespace characters. -/
def dropTrailingSpaces : List Char → List Char
  | [] => []
  | c :: r =>
    match dropTrailingSpaces r with
    | [] => if isSpaceChar c then [] else [c]
    | s => c :: s

/-- The non-digit test used when scanning a name. -/
def notDigit (c : Char) : Bool := !(isDigitChar c)

theorem cleanGo_spec (xs : List Char) : ∀ (i : Nat) (last : Option Nat),
    cleanGo xs last i =
      if dropTrailingSpaces (xs.takeWhile notDigit) = [] then last
      else some (i + (dropTrailingSpaces (xs.takeWhile notDigit)).length - 1) := by
  induction xs with
  | nil => intro i last; simp [cleanGo, dropTrailingSpaces]
  | cons c r ih =>
    intro i last
    by_cases hd : isDigitChar c
    · simp [cleanGo, hd, List.takeWhile, notDigit, dropTrailingSpaces]
    · by_cases hs : isSpaceChar c
      · have htw : (c :: r).takeWhile notDigit = c :: r.takeWhile notDigit := by
          simp [List.takeWhile, notDigit, hd]
        rw [cleanGo, if_neg hd, if_pos hs, ih (i + 1) last, htw]
        cases hrec : dropTrailingSpaces (r.takeWhile notDigit) with
        | nil => simp [dropTrailingSpaces, hrec, hs]
        | cons x t =>
          have : dropTrailingSpaces (c :: r.takeWhile notDigit) = c :: x :: t := by
            simp [dropTrailingSpaces, hrec]
          simp only [hrec, this]
          simp [List.length_cons]
          omega
      · have htw : (c :: r).takeWhile notDigit = c :: r.takeWhile notDigit := by
          simp [List.takeWhile, notDigit, hd]
        rw [cleanGo, if_neg hd, if_neg hs, ih (i + 1) (some i), htw]
        cases hrec : dropTrailingSpaces (r.takeWhile notDigit) with
        | nil => simp [dropTrailingSpaces, hrec, hs]
        | cons x t =>
          have : dropTrailingSpaces (c :: r.takeWhile notDigit) = c :: x :: t := by
            simp [dropTrailingSpaces, hrec]
          simp only [hrec, this]
          simp [List.length_cons]
          omega

theorem dropTrailingSpaces_take (l : List Char) :
    dropTrailingSpaces (l.takeWhile notDigit) =
      l.take (dropTrailingSpaces (l.takeWhile notDigit)).length := by
  induction l with
  | nil => simp [dropTrailingSpaces]
  | cons c r ih =>
    by_cases hd : isDigitChar c
    · simp [List.takeWhile, notDigit, hd, dropTrailingSpaces]
    · have htw : (c :: r).takeWhile notDigit = c :: r.takeWhile notDigit := by
        simp [List.takeWhile, notDigit, hd]
      rw [htw]
      cases hrec : dropTrailingSpaces (r.takeWhile notDigit) with
      | nil =>
        by_cases hs : isSpaceChar c
        · simp [dropTrailingSpaces, hrec, hs]
        · simp [dropTrailingSpaces, hrec, hs]
      | cons x t =>
        have hstep : dropTrailingSpaces (c :: r.takeWhile notDigit) = c :: x :: t := by
          simp [dropTrailingSpaces, hrec]
        rw [hstep]
        simp only [List.length_cons, List.take_succ_cons]
        rw [← hrec, ih, hrec]
        simp

/-- cleanName takes the prefix of the name before the first digit and strips
its trailing whitespace. -/
theorem cleanName_eq (name : List Char) :
    cleanName name = dropTrailingSpaces (name.takeWhile notDigit) := by
  unfold cleanName
  rw [cleanGo_spec name 0 none]
  cases hrec : dropTrailingSpaces (name.takeWhile notDigit) with
  | nil => simp [hrec]
  | cons x t =>
    have hne : (x :: t : List Char) ≠ [] := by simp
    simp only [if_neg hne]
    have hlen : 0 + (x :: t).length - 1 + 1 = (x :: t).length := by
      simp [List.length_cons]
    rw [hlen, ← hrec]
    exact (dropTrailingSpaces_take name).symm

theorem sLe_take (l : List Char) (n : Nat) : sLe (l.take n) l := by
  induction l generalizing n with
  | nil => simp [List.take_nil, sLe_refl]
  | cons c r ih =>
    cases n with
    | zero => simp [sLe, strcmp]
    | succ m =>
      have := ih m
      simp only [List.take_succ_cons]
      unfold sLe at *
      simpa [strcmp] using this

theorem cleanName_sLe (name : List Char) : sLe (cleanName name) name := by
  rw [cleanName_eq, dropTrailingSpaces_take]
  exact sLe_take name _

theorem dropTrailingSpaces_all_space {l : List Char}
    (h : ∀ c ∈ l, isSpaceChar c) : dropTrailingSpaces l = [] := by
  induction l with
  | nil => rfl
  | cons c r ih =>
    have hr : dropTrailingSpaces r = [] := ih (fun x hx => h x (List.mem_cons_of_mem c hx))
    have hc : isSpaceChar c := h c (List.mem_cons_self c r)
    simp [dropTrailingSpaces, hr, hc]

/-- If the name has no non-whitespace character before its first digit, the
cleanup empties it. -/
theorem cleanName_empty_of_space {name : List Char}
    (h : ∀ c ∈ name.takeWhile notDigit, isSpaceChar c) : cleanName name = [] := by
  rw [cleanName_eq]
  exact dropTrailingSpaces_all_space h

/-- One entry of the merge trace: the index of the winning unit, whether the
record was written to the output file (false: dropped as a duplicate id), and
whether the separating space between the 30-column name field and the id
field was omitted in the written line. -/
structure TraceEntry where
  widx : Nat
  emitted : Bool
  noSpace : Bool
  pers : Person
deriving DecidableEq, Repr

/-- State of the createDatabase merge loop.  pending holds, for each unit,
the records not yet consumed from that unit; its head is the current record
slot (currentPersons[i]), with an empty list standing for an exhausted or
never-primed unit.  lastFileIndex is the C variable of the same name, with
none standing for -1.  oobWrite records that a strcpy into processedIDs
happened at an index at or beyond its MAX_UNITS capacity. -/
structure MergeState where
  pending : List (List Person)
  lastFileIndex : Option Nat
  processedIDs : List (List Char)
  oobWrite : Bool
  trace : List TraceEntry
deriving Repr

/-- The current-record test of the merge scan: a unit takes part only when it
has a current record whose name is nonempty (name[0] != the null byte). -/
def selectable : List Person → Option Person
  | [] => none
  | p :: _ => if p.name = [] then none else some p

/-- The linear scan for the lexicographically smallest current record,
mirroring the for loop of createDatabase: i counts from the current index,
best holds the best (index, record) pair so far, and a record displaces the
best only when strictly smaller, so the earliest unit wins ties. -/
def fsGo : Nat → Option (Nat × Person) → List (List Person) → Option (Nat × Person)
  | _, best, [] => best
  | i, best, u :: rest =>
    match selectable u with
    | none => fsGo (i + 1) best rest
    | some p =>
      match best with
      | none => fsGo (i + 1) (some (i, p)) rest
      | some (j, q) =>
        if strcmp p.name q.name = Ordering.lt then fsGo (i + 1) (some (i, p)) rest
        else fsGo (i + 1) (some (j, q)) rest

/-- smallestIndex selection over all units (none corresponds to -1). -/
def findSmallest (pending : List (List Person)) : Option (Nat × Person) :=
  fsGo 0 none pending

/-- Advance the winning unit: the next record of that unit is parsed into its
slot (here: the head of its pending list is dropped). -/
def popAt (l : List (List Person)) (i : Nat) : List (List Person) :=
  l.set i (match l[i]? with
           | some u => u.tail
           | none => [])

/-- One iteration of the merge loop body for winner (i, p): the duplicate
check, the newline bookkeeping, the write (or silent drop), the processed-id
append, and the advance of the winning unit. -/
def mergeStep (s : MergeState) (i : Nat) (p : Person) : MergeState :=
  let dup := isDuplicate p.id s.processedIDs
  let nl := (!(s.lastFileIndex == some i)) && s.lastFileIndex.isSome
  { pending := popAt s.pending i
    lastFileIndex := some i
    processedIDs := if dup then s.processedIDs else s.processedIDs ++ [p.id]
    oobWrite :=
      if dup then s.oobWrite
      else s.oobWrite || decide (MAX_UNITS ≤ s.processedIDs.length)
    trace := s.trace ++ [⟨i, !dup, !dup && nl, p⟩] }

/-- The while loop of createDatabase, with explicit fuel; it stops when no
unit has a selectable current record (smallestIndex == -1). -/
def mergeLoop : Nat → MergeState → MergeState
  | 0, s => s
  | fuel + 1, s =>
    match findSmallest s.pending with
    | none => s
    | some (i, p) => mergeLoop fuel (mergeStep s i p)

/-- Priming a unit: a successful initial parse is followed by cleanName on
the parsed name; a unit whose initial parse fails stays inactive. -/
def cleanFirst : List Person → List Person
  | [] => []
  | p :: rest => { p with name := cleanName p.name } :: rest

/-- The merge state just before the while loop of createDatabase. -/
def initState (streams : List (List Person)) : MergeState :=
  { pending := streams.map cleanFirst
    lastFileIndex := none
    processedIDs := []
    oobWrite := false
    trace := [] }

/-- Total number of records still to be consumed. -/
def pendingSize (l : List (List Person)) : Nat := (l.map List.length).sum

/-- createDatabase: prime every unit, then run the merge loop to completion
(the fuel equals the total number of primed records, which bounds the number
of loop iterations). -/
def createDatabase (streams : List (List Person)) : MergeState :=
  mergeLoop (pendingSize (streams.map cleanFirst)) (initState streams)

/-- The records written to the unified database, in write order. -/
def outputOf (s : MergeState) : List Person :=
  (s.trace.filter (fun e => e.emitted)).map (fun e => e.pers)

/-- The records silently dropped as duplicate ids, in drop order. -/
def droppedOf (s : MergeState) : List Person :=
  (s.trace.filter (fun e => !e.emitted)).map (fun e => e.pers)

/-- The ids of the written records, in write order. -/
def emittedIds (t : List TraceEntry) : List (List Char) :=
  (t.filter (fun e => e.emitted)).map (fun e => e.pers.id)

theorem selectable_inv {u : List Person} {p : Person} (h : selectable u = some p) :
    ∃ rest, u = p :: rest ∧ p.name ≠ [] := by
  cases u with
  | nil => simp [selectable] at h
  | cons q rest =>
    by_cases hq : q.name = []
    · simp [selectable, hq] at h
    · simp only [selectable, if_neg hq, Option.some.injEq] at h
      exact ⟨rest, by rw [h], h ▸ hq⟩

theorem fsGo_ne_none {i : Nat} {x : Nat × Person} {l : List (List Person)} :
    fsGo i (some x) l ≠ none := by
  induction l generalizing i x with
  | nil => simp [fsGo]
  | cons u rest ih =>
    cases hx : x with
    | mk j q =>
      simp only [fsGo]
      cases hsel : selectable u with
      | none => exact ih
      | some p =>
        by_cases hlt : strcmp p.name q.name = Ordering.lt
        · simp only [hlt, if_pos rfl]; exact ih
        · simp only [if_neg hlt]; exact ih

theorem fsGo_none_all {i : Nat} {l : List (List Person)}
    (h : fsGo i none l = none) : ∀ u ∈ l, selectable u = none := by
  induction l generalizing i with
  | nil => intro u hu; cases hu
  | cons v rest ih =>
    intro u hu
    cases hsel : selectable v with
    | some p =>
      rw [fsGo, hsel] at h
      exact absurd h fsGo_ne_none
    | none =>
      rw [fsGo, hsel] at h
      rcases List.mem_cons.mp hu with h1 | h2
      · rw [h1]; exact hsel
      · exact ih h u h2

theorem fsGo_all_none {i : Nat} {best : Option (Nat × Person)} {l : List (List Person)}
    (h : ∀ u ∈ l, selectable u = none) : fsGo i best l = best := by
  induction l generalizing i with
  | nil => rfl
  | cons v rest ih =>
    have hv : selectable v = none := h v (List.mem_cons_self v rest)
    rw [fsGo, hv]
    exact ih (fun u hu => h u (List.mem_cons_of_mem v hu))

theorem findSmallest_none_iff {pending : List (List Person)} :
    findSmallest pending = none ↔ ∀ u ∈ pending, selectable u = none := by
  constructor
  · exact fsGo_none_all
  · intro h; exact fsGo_all_none h

theorem fsGo_index {l : List (List Person)} : ∀ {i : Nat} {best : Option (Nat × Person)}
    {j : Nat} {p : Person}, fsGo i best l = some (j, p) →
    best = some (j, p) ∨
      ∃ k u, l[k]? = some u ∧ selectable u = some p ∧ j = i + k := by
  induction l with
  | nil => intro i best j p h; exact Or.inl h
  | cons v rest ih =>
    intro i best j p h
    cases hsel : selectable v with
    | none =>
      simp only [fsGo, hsel] at h
      rcases ih h with h1 | ⟨k, u, hk, hu, hj⟩
      · exact Or.inl h1
      · exact Or.inr ⟨k + 1, u, by simpa using hk, hu, by omega⟩
    | some q =>
      cases best with
      | none =>
        simp only [fsGo, hsel] at h
        rcases ih h with h1 | ⟨k, u, hk, hu, hj⟩
        · have h1' := h1
          simp only [Option.some.injEq, Prod.mk.injEq] at h1'
          obtain ⟨hij, hqp⟩ := h1'
          refine Or.inr ⟨0, v, by simp, ?_, by omega⟩
          rw [hsel, hqp]
        · exact Or.inr ⟨k + 1, u, by simpa using hk, hu, by omega⟩
      | some bq =>
        cases bq with
        | mk jb qb =>
          by_cases hlt : strcmp q.name qb.name = Ordering.lt
          · simp only [fsGo, hsel, if_pos hlt] at h
            rcases ih h with h1 | ⟨k, u, hk, hu, hj⟩
            · have h1' := h1
              simp only [Option.some.injEq, Prod.mk.injEq] at h1'
              obtain ⟨hij, hqp⟩ := h1'
              refine Or.inr ⟨0, v, by simp, ?_, by omega⟩
              rw [hsel, hqp]
            · exact Or.inr ⟨k + 1, u, by simpa using hk, hu, by omega⟩
          · simp only [fsGo, hsel, if_neg hlt] at h
            rcases ih h with h1 | ⟨k, u, hk, hu, hj⟩
            · exact Or.inl h1
            · exact Or.inr ⟨k + 1, u, by simpa using hk, hu, by omega⟩

theorem fsGo_min {l : List (List Person)} : ∀ {i : Nat} {best : Option (Nat × Person)}
    {j : Nat} {p : Person}, fsGo i best l = some (j, p) →
    (∀ jb qb, best = some (jb, qb) → sLe p.name qb.name) ∧
      (∀ u ∈ l, ∀ q, selectable u = some q → sLe p.name q.name) := by
  induction l with
  | nil =>
    intro i best j p h
    have hbb : best = some (j, p) := by simpa [fsGo] using h
    constructor
    · intro jb qb hb
      rw [hbb] at hb
      have hb' := hb
      simp only [Option.some.injEq, Prod.mk.injEq] at hb'
      rw [← hb'.2]
      exact sLe_refl _
    · intro u hu
      exact absurd hu (List.not_mem_nil u)
  | cons v rest ih =>
    intro i best j p h
    cases hsel : selectable v with
    | none =>
      simp only [fsGo, hsel] at h
      obtain ⟨hbest, hall⟩ := ih h
      refine ⟨hbest, fun u hu q hq => ?_⟩
      rcases List.mem_cons.mp hu with h1 | h2
      · rw [h1, hsel] at hq; cases hq
      · exact hall u h2 q hq
    | some q =>
      cases best with
      | none =>
        simp only [fsGo, hsel] at h
        obtain ⟨hbest, hall⟩ := ih h
        have hpq : sLe p.name q.name := hbest i q rfl
        refine ⟨fun jb qb hb => absurd hb (by simp), fun u hu qq hq => ?_⟩
        rcases List.mem_cons.mp hu with h1 | h2
        · rw [h1, hsel] at hq
          have hq' := hq
          simp only [Option.some.injEq] at hq'
          rw [← hq']
          exact hpq
        · exact hall u h2 qq hq
      | some bq =>
        cases bq with
        | mk jb0 qb0 =>
          by_cases hlt : strcmp q.name qb0.name = Ordering.lt
          · simp only [fsGo, hsel, if_pos hlt] at h
            obtain ⟨hbest, hall⟩ := ih h
            have hpq : sLe p.name q.name := hbest i q rfl
            have hpb : sLe p.name qb0.name := sLe_trans hpq (sLe_of_lt hlt)
            refine ⟨fun jb qb hb => ?_, fun u hu qq hq => ?_⟩
            · have hb' := hb
              simp only [Option.some.injEq, Prod.mk.injEq] at hb'
              rw [← hb'.2]
              exact hpb
            · rcases List.mem_cons.mp hu with h1 | h2
              · rw [h1, hsel] at hq
                have hq' := hq
                simp only [Option.some.injEq] at hq'
                rw [← hq']
                exact hpq
              · exact hall u h2 qq hq
          · simp only [fsGo, hsel, if_neg hlt] at h
            obtain ⟨hbest, hall⟩ := ih h
            have hpb : sLe p.name qb0.name := hbest jb0 qb0 rfl
            have hpq : sLe p.name q.name := sLe_trans hpb (sLe_of_not_lt hlt)
            refine ⟨fun jb qb hb => ?_, fun u hu qq hq => ?_⟩
            · have hb' := hb
              simp only [Option.some.injEq, Prod.mk.injEq] at hb'
              rw [← hb'.2]
              exact hpb
            · rcases List.mem_cons.mp hu with h1 | h2
              · rw [h1, hsel] at hq
                have hq' := hq
                simp only [Option.some.injEq] at hq'
                rw [← hq']
                exact hpq
              · exact hall u h2 qq hq

/-- A successful scan returns the index of a unit whose current record is the
returned record, with a nonempty name. -/
theorem findSmallest_spec {pending : List (List Person)} {i : Nat} {p : Person}
    (h : findSmallest pending = some (i, p)) :
    ∃ rest, pending[i]? = some (p :: rest) ∧ p.name ≠ [] := by
  rcases fsGo_index h with h1 | ⟨k, u, hk, hu, hj⟩
  · cases h1
  · obtain ⟨rest, hrest, hname⟩ := selectable_inv hu
    refine ⟨rest, ?_, hname⟩
    have : i = k := by omega
    rw [this, hk, hrest]

/-- The winning record is lexicographically no greater than every selectable
current record. -/
theorem findSmallest_min {pending : List (List Person)} {i : Nat} {p : Person}
    (h : findSmallest pending = some (i, p)) :
    ∀ u ∈ pending, ∀ q, selectable u = some q → sLe p.name q.name :=
  (fsGo_min h).2

theorem mergeStep_pending (s : MergeState) (i : Nat) (p : Person) :
    (mergeStep s i p).pending = popAt s.pending i := rfl

theorem popAt_of_eq {l : List (List Person)} {i : Nat} {u : List Person}
    (h : l[i]? = some u) : popAt l i = l.set i u.tail := by
  simp [popAt, h]

theorem pendingSize_set_tail {l : List (List Person)} : ∀ {i : Nat} {p : Person}
    {rest : List Person}, l[i]? = some (p :: rest) →
    pendingSize (l.set i rest) + 1 = pendingSize l := by
  induction l with
  | nil => intro i p rest h; simp at h
  | cons u t ih =>
    intro i p rest h
    cases i with
    | zero =>
      simp only [List.getElem?_cons_zero, Option.some.injEq] at h
      rw [h]
      simp [pendingSize, List.set]
      omega
    | succ m =>
      simp only [List.getElem?_cons_succ] at h
      have := ih h
      simp only [List.set]
      simp only [pendingSize, List.map_cons, List.sum_cons] at *
      omega

theorem pendingSize_popAt {l : List (List Person)} {i : Nat} {p : Person}
    {rest : List Person} (h : l[i]? = some (p :: rest)) :
    pendingSize (popAt l i) + 1 = pendingSize l := by
  rw [popAt_of_eq h]
  exact pendingSize_set_tail h

theorem pendingSize_zero_all_nil {l : List (List Person)}
    (h : pendingSize l = 0) : ∀ u ∈ l, u = [] := by
  intro u hu
  have : u.length = 0 := by
    have hmem : u.length ∈ l.map List.length := List.mem_map_of_mem List.length hu
    unfold pendingSize at h
    rw [List.sum_eq_zero_iff] at h
    exact h _ hmem
  exact List.eq_nil_of_length_eq_zero this

/-- With fuel at least the number of pending records, the merge loop runs to
completion: no unit has a selectable current record in the final state. -/
theorem mergeLoop_complete : ∀ (fuel : Nat) (s : MergeState),
    pendingSize s.pending ≤ fuel →
    findSmallest (mergeLoop fuel s).pending = none := by
  intro fuel
  induction fuel with
  | zero =>
    intro s h
    have hz : pendingSize s.pending = 0 := Nat.le_zero.mp h
    rw [mergeLoop]
    rw [findSmallest_none_iff]
    intro u hu
    rw [pendingSize_zero_all_nil hz u hu]
    rfl
  | succ n ih =>
    intro s h
    rw [mergeLoop]
    cases hfs : findSmallest s.pending with
    | none => rw [findSmallest_none_iff] at hfs; rw [findSmallest_none_iff]; exact hfs
    | some ip =>
      cases ip with
      | mk i p =>
        obtain ⟨rest, hrest, hname⟩ := findSmallest_spec hfs
        apply ih
        rw [mergeStep_pending]
        have := pendingSize_popAt hrest
        omega

/-- Any property preserved by every step taken on an actual winner is
preserved by the whole loop. -/
theorem mergeLoop_inv (P : MergeState → Prop)
    (hstep : ∀ s i p, findSmallest s.pending = some (i, p) → P s → P (mergeStep s i p)) :
    ∀ (fuel : Nat) (s : MergeState), P s → P (mergeLoop fuel s) := by
  intro fuel
  induction fuel with
  | zero => intro s h; exact h
  | succ n ih =>
    intro s h
    rw [mergeLoop]
    cases hfs : findSmallest s.pending with
    | none => exact h
    | some ip =>
      cases ip with
      | mk i p => exact ih _ (hstep s i p hfs h)

/-- createDatabase always runs its loop to completion. -/
theorem createDatabase_terminated (streams : List (List Person)) :
    findSmallest (createDatabase streams).pending = none := by
  apply mergeLoop_complete
  rfl

/-- Result of getPotentialDonors: the records placed in the donors buffer in
encounter order, the value stored through the size out-parameter, and a flag
recording that some store happened at an index at or beyond the MAX_PERSONS
capacity of the malloc-ed buffer. -/
structure DonorResult where
  donors : List Person
  size : Nat
  oobWrite : Bool
deriving Repr

/-- The read loop of getPotentialDonors: for each parsed record, count the
gene matches against the patient and keep the record when the count reaches
min_match (an int in C, so modelled as Int). -/
def donorLoop (patient : Person) (min_match : Int) : List Person → DonorResult → DonorResult
  | [], acc => acc
  | current :: rest, acc =>
    if min_match ≤ (countGeneMatches current patient : Int) then
      donorLoop patient min_match rest
        { donors := acc.donors ++ [current]
          size := acc.size + 1
          oobWrite := acc.oobWrite || decide (MAX_PERSONS ≤ acc.donors.length) }
    else donorLoop patient min_match rest acc

/-- getPotentialDonors on the list of records parsed from the database file. -/
def getPotentialDonors (database : List Person) (patient : Person) (min_match : Int) :
    DonorResult :=
  donorLoop patient min_match database { donors := [], size := 0, oobWrite := false }

/-- The filtering predicate of the donor scan. -/
def donorKeep (patient : Person) (min_match : Int) (p : Person) : Bool :=
  decide (min_match ≤ (countGeneMatches p patient : Int))

theorem donorLoop_donors (patient : Person) (min_match : Int) :
    ∀ (db : List Person) (acc : DonorResult),
    (donorLoop patient min_match db acc).donors
      = acc.donors ++ db.filter (donorKeep patient min_match) := by
  intro db
  induction db with
  | nil => intro acc; simp [donorLoop]
  | cons current rest ih =>
    intro acc
    by_cases hkeep : min_match ≤ (countGeneMatches current patient : Int)
    · have hk : donorKeep patient min_match current = true := by
        simp [donorKeep, hkeep]
      simp only [donorLoop, if_pos hkeep]
      rw [ih]
      simp [List.filter_cons, hk]
    · have hk : donorKeep patient min_match current = false := by
        simp [donorKeep, hkeep]
      simp only [donorLoop, if_neg hkeep]
      rw [ih]
      simp [List.filter_cons, hk]

theorem donorLoop_size (patient : Person) (min_match : Int) :
    ∀ (db : List Person) (acc : DonorResult),
    (donorLoop patient min_match db acc).size
      = acc.size + (db.filter (donorKeep patient min_match)).length := by
  intro db
  induction db with
  | nil => intro acc; simp [donorLoop]
  | cons current rest ih =>
    intro acc
    by_cases hkeep : min_match ≤ (countGeneMatches current patient : Int)
    · have hk : donorKeep patient min_match current = true := by
        simp [donorKeep, hkeep]
      simp only [donorLoop, if_pos hkeep]
      rw [ih]
      simp only [List.filter_cons, hk, if_pos, List.length_cons]
      omega
    · have hk : donorKeep patient min_match current = false := by
        simp [donorKeep, hkeep]
      simp only [donorLoop, if_neg hkeep]
      rw [ih]
      simp [List.filter_cons, hk]

theorem donorLoop_oob_true (patient : Person) (min_match : Int) :
    ∀ (db : List Person) (acc : DonorResult), acc.oobWrite = true →
    (donorLoop patient min_match db acc).oobWrite = true := by
  intro db
  induction db with
  | nil => intro acc h; simpa [donorLoop] using h
  | cons current rest ih =>
    intro acc h
    by_cases hkeep : min_match ≤ (countGeneMatches current patient : Int)
    · simp only [donorLoop, if_pos hkeep]
      exact ih _ (by simp [h])
    · simp only [donorLoop, if_neg hkeep]
      exact ih _ h

theorem donorLoop_oob_low (patient : Person) (min_match : Int) :
    ∀ (db : List Person) (acc : DonorResult), acc.oobWrite = false →
    acc.donors.length + (db.filter (donorKeep patient min_match)).length ≤ MAX_PERSONS →
    (donorLoop patient min_match db acc).oobWrite = false := by
  intro db
  induction db with
  | nil => intro acc h _; simpa [donorLoop] using h
  | cons current rest ih =>
    intro acc h hlen
    by_cases hkeep : min_match ≤ (countGeneMatches current patient : Int)
    · have hk : donorKeep patient min_match current = true := by
        simp [donorKeep, hkeep]
      rw [List.filter_cons, hk] at hlen
      simp only [if_pos] at hlen
      simp only [donorLoop, if_pos hkeep]
      apply ih
      · simp only [h, Bool.false_or]
        simp only [List.length_cons] at hlen
        have : ¬ MAX_PERSONS ≤ acc.donors.length := by omega
        simp [this]
      · simp only [List.length_append, List.length_singleton]
        simp only [List.length_cons] at hlen
        omega
    · have hk : donorKeep patient min_match current = false := by
        simp [donorKeep, hkeep]
      rw [List.filter_cons, hk] at hlen
      simp only [Bool.false_eq_true, if_neg] at hlen
      simp only [donorLoop, if_neg hkeep]
      exact ih acc h (by simpa using hlen)

theorem donorLoop_oob_high (patient : Person) (min_match : Int) :
    ∀ (db : List Person) (acc : DonorResult), acc.oobWrite = false →
    acc.donors.length ≤ MAX_PERSONS →
    MAX_PERSONS < acc.donors.length + (db.filter (donorKeep patient min_match)).length →
    (donorLoop patient min_match db acc).oobWrite = true := by
  intro db
  induction db with
  | nil =>
    intro acc _ hle hgt
    simp only [List.filter_nil, List.length_nil, Nat.add_zero] at hgt
    omega
  | cons current rest ih =>
    intro acc h hle hgt
    by_cases hkeep : min_match ≤ (countGeneMatches current patient : Int)
    · have hk : donorKeep patient min_match current = true := by
        simp [donorKeep, hkeep]
      rw [List.filter_cons, hk] at hgt
      simp only [if_pos, List.length_cons] at hgt
      simp only [donorLoop, if_pos hkeep]
      by_cases hfull : MAX_PERSONS ≤ acc.donors.length
      · apply donorLoop_oob_true
        simp [h, hfull]
      · apply ih
        · simp [h, hfull]
        · simp only [List.length_append, List.length_singleton]
          omega
        · simp only [List.length_append, List.length_singleton]
          omega
    · have hk : donorKeep patient min_match current = false := by
        simp [donorKeep, hkeep]
      rw [List.filter_cons, hk] at hgt
      simp only [Bool.false_eq_true, if_neg] at hgt
      simp only [donorLoop, if_neg hkeep]
      exact ih acc h hle (by simpa using hgt)

theorem getPotentialDonors_donors (database : List Person) (patient : Person)
    (min_match : Int) :
    (getPotentialDonors database patient min_match).donors
      = database.filter (donorKeep patient min_match) := by
  have := donorLoop_donors patient min_match database
    { donors := [], size := 0, oobWrite := false }
  simpa [getPotentialDonors] using this

theorem getPotentialDonors_size (database : List Person) (patient : Person)
    (min_match : Int) :
    (getPotentialDonors database patient min_match).size
      = (database.filter (donorKeep patient min_match)).length := by
  have := donorLoop_size patient min_match database
    { donors := [], size := 0, oobWrite := false }
  simpa [getPotentialDonors] using this

theorem getPotentialDonors_oob (database : List Person) (patient : Person)
    (min_match : Int) :
    ((getPotentialDonors database patient min_match).oobWrite = false ↔
      (database.filter (donorKeep patient min_match)).length ≤ MAX_PERSONS) := by
  constructor
  · intro h
    by_contra hgt
    have := donorLoop_oob_high patient min_match database
      { donors := [], size := 0, oobWrite := false } rfl (by simp [MAX_PERSONS])
      (by simpa using Nat.lt_of_not_le hgt)
    rw [getPotentialDonors] at h
    rw [this] at h
    cases h
  · intro hle
    exact donorLoop_oob_low patient min_match database
      { donors := [], size := 0, oobWrite := false } rfl (by simpa using hle)

theorem mergeStep_processedIDs (s : MergeState) (i : Nat) (p : Person) :
    (mergeStep s i p).processedIDs =
      if isDuplicate p.id s.processedIDs then s.processedIDs
      else s.processedIDs ++ [p.id] := rfl

theorem mergeStep_oobWrite (s : MergeState) (i : Nat) (p : Person) :
    (mergeStep s i p).oobWrite =
      if isDuplicate p.id s.processedIDs then s.oobWrite
      else s.oobWrite || decide (MAX_UNITS ≤ s.processedIDs.length) := rfl

theorem mergeStep_lastFileIndex (s : MergeState) (i : Nat) (p : Person) :
    (mergeStep s i p).lastFileIndex = some i := rfl

theorem mergeStep_trace (s : MergeState) (i : Nat) (p : Person) :
    (mergeStep s i p).trace = s.trace ++
      [⟨i, !isDuplicate p.id s.processedIDs,
        !isDuplicate p.id s.processedIDs &&
          ((!(s.lastFileIndex == some i)) && s.lastFileIndex.isSome), p⟩] := rfl

theorem outputOf_mergeStep (s : MergeState) (i : Nat) (p : Person) :
    outputOf (mergeStep s i p) =
      outputOf s ++ (if isDuplicate p.id s.processedIDs then [] else [p]) := by
  unfold outputOf
  rw [mergeStep_trace, List.filter_append, List.map_append]
  by_cases hdup : isDuplicate p.id s.processedIDs
  · simp [hdup]
  · simp [hdup]

theorem droppedOf_mergeStep (s : MergeState) (i : Nat) (p : Person) :
    droppedOf (mergeStep s i p) =
      droppedOf s ++ (if isDuplicate p.id s.processedIDs then [p] else []) := by
  unfold droppedOf
  rw [mergeStep_trace, List.filter_append, List.map_append]
  by_cases hdup : isDuplicate p.id s.processedIDs
  · simp [hdup]
  · simp [hdup]

/-- Invariant tying the duplicate store and its overflow flag to the output:
the number of stored ids equals the number of written records, and the flag
is set exactly when the store has been pushed past its MAX_UNITS capacity. -/
def oobInv (s : MergeState) : Prop :=
  s.oobWrite = decide (MAX_UNITS < s.processedIDs.length) ∧
    s.processedIDs.length = (outputOf s).length

theorem oobInv_step (s : MergeState) (i : Nat) (p : Person)
    (_hfs : findSmallest s.pending = some (i, p)) (h : oobInv s) :
    oobInv (mergeStep s i p) := by
  obtain ⟨h1, h2⟩ := h
  unfold oobInv
  rw [mergeStep_processedIDs, mergeStep_oobWrite, outputOf_mergeStep]
  by_cases hdup : isDuplicate p.id s.processedIDs
  · simp only [if_pos hdup]
    exact ⟨h1, by simpa using h2⟩
  · simp only [if_neg hdup]
    constructor
    · rw [h1]
      simp only [List.length_append, List.length_singleton]
      by_cases hle : MAX_UNITS ≤ s.processedIDs.length
      · have : MAX_UNITS < s.processedIDs.length + 1 := by omega
        simp [hle, this]
      · have h3 : ¬ MAX_UNITS < s.processedIDs.length := by omega
        have h4 : (MAX_UNITS < s.processedIDs.length + 1) ↔ (MAX_UNITS ≤ s.processedIDs.length) := by omega
        simp [h3, hle, h4]
    · simp only [List.length_append, List.length_singleton]
      omega

theorem oobInv_createDatabase (streams : List (List Person)) :
    oobInv (createDatabase streams) := by
  unfold createDatabase
  apply mergeLoop_inv oobInv oobInv_step
  constructor
  · rfl
  · rfl

theorem isDuplicate_iff {id : List Char} {seen : List (List Char)} :
    isDuplicate id seen = true ↔ id ∈ seen := by
  unfold isDuplicate
  rw [List.any_eq_true]
  constructor
  · intro ⟨q, hq, heq⟩
    have h2 : strcmp id q = Ordering.eq := by
      cases h3 : strcmp id q with
      | eq => rfl
      | lt => rw [h3] at heq; exact absurd heq (by decide)
      | gt => rw [h3] at heq; exact absurd heq (by decide)
    rw [strcmp_eq_iff.mp h2]
    exact hq
  · intro h
    refine ⟨id, h, ?_⟩
    rw [strcmp_self]
    rfl

/-- The set of written ids accumulated along a trace, starting from seen. -/
def runSeen : List (List Char) → List TraceEntry → List (List Char)
  | seen, [] => seen
  | seen, e :: rest => runSeen (if e.emitted then seen ++ [e.pers.id] else seen) rest

/-- A trace obeys first-seen-wins deduplication from the initial id set seen:
each entry is written exactly when its id has not been written before, and
dropped exactly when it has. -/
def traceOK : List (List Char) → List TraceEntry → Bool
  | _, [] => true
  | seen, e :: rest =>
    (e.emitted == !isDuplicate e.pers.id seen) &&
      traceOK (if e.emitted then seen ++ [e.pers.id] else seen) rest

theorem runSeen_append (e : TraceEntry) : ∀ (t : List TraceEntry) (a : List (List Char)),
    runSeen a (t ++ [e]) = if e.emitted then runSeen a t ++ [e.pers.id] else runSeen a t := by
  intro t
  induction t with
  | nil => intro a; simp [runSeen]
  | cons x rest ih =>
    intro a
    simp only [List.cons_append, runSeen]
    exact ih _

theorem traceOK_append (e : TraceEntry) : ∀ (t : List TraceEntry) (a : List (List Char)),
    traceOK a (t ++ [e]) =
      (traceOK a t && (e.emitted == !isDuplicate e.pers.id (runSeen a t))) := by
  intro t
  induction t with
  | nil => intro a; simp [traceOK, runSeen]
  | cons x rest ih =>
    intro a
    simp only [List.cons_append, traceOK, runSeen, List.append_eq]
    rw [ih]
    cases hx : (x.emitted == !isDuplicate x.pers.id a) <;> simp

/-- Invariant: the trace is a valid dedup trace and the processed-id store is
exactly the set of written ids. -/
def dedupInv (s : MergeState) : Prop :=
  traceOK [] s.trace = true ∧ runSeen [] s.trace = s.processedIDs

theorem dedupInv_step (s : MergeState) (i : Nat) (p : Person)
    (_hfs : findSmallest s.pending = some (i, p)) (h : dedupInv s) :
    dedupInv (mergeStep s i p) := by
  obtain ⟨h1, h2⟩ := h
  unfold dedupInv
  rw [mergeStep_trace, mergeStep_processedIDs, traceOK_append, runSeen_append]
  constructor
  · rw [h1, h2]
    simp
  · rw [h2]
    by_cases hdup : isDuplicate p.id s.processedIDs
    · simp [hdup]
    · simp [hdup]

theorem dedupInv_createDatabase (streams : List (List Person)) :
    dedupInv (createDatabase streams) := by
  unfold createDatabase
  apply mergeLoop_inv dedupInv dedupInv_step
  exact ⟨rfl, rfl⟩

theorem runSeen_eq_emittedIds : ∀ (t : List TraceEntry) (a : List (List Char)),
    runSeen a t = a ++ emittedIds t := by
  intro t
  induction t with
  | nil => intro a; simp [runSeen, emittedIds]
  | cons e rest ih =>
    intro a
    cases he : e.emitted with
    | true =>
      simp only [runSeen, he, if_pos]
      rw [ih]
      simp [emittedIds, he]
    | false =>
      simp only [runSeen, he]
      rw [ih]
      simp [emittedIds, he]

theorem traceOK_nodup : ∀ (t : List TraceEntry) (a : List (List Char)),
    traceOK a t = true → a.Nodup → (a ++ emittedIds t).Nodup := by
  intro t
  induction t with
  | nil => intro a _ ha; simpa [emittedIds] using ha
  | cons e rest ih =>
    intro a hok ha
    simp only [traceOK, Bool.and_eq_true, beq_iff_eq] at hok
    obtain ⟨hhead, htail⟩ := hok
    cases he : e.emitted with
    | true =>
      rw [he] at hhead htail
      simp only [if_pos] at htail
      have hnotin : e.pers.id ∉ a := by
        intro hmem
        rw [← isDuplicate_iff] at hmem
        rw [hmem] at hhead
        simp at hhead
      have ha' : (a ++ [e.pers.id]).Nodup := by
        have hperm : (a ++ [e.pers.id]).Perm (e.pers.id :: a) := List.perm_append_singleton _ _
        rw [hperm.nodup_iff]
        exact List.nodup_cons.mpr ⟨hnotin, ha⟩
      have := ih (a ++ [e.pers.id]) htail ha'
      simpa [emittedIds, he] using this
    | false =>
      rw [he] at htail
      simp only [Bool.false_eq_true, if_neg] at htail
      have := ih a htail ha
      simpa [emittedIds, he] using this

/-- The ids of the records written by the merge are pairwise distinct. -/
theorem createDatabase_nodup_ids (streams : List (List Person)) :
    ((outputOf (createDatabase streams)).map Person.id).Nodup := by
  obtain ⟨h1, _h2⟩ := dedupInv_createDatabase streams
  have := traceOK_nodup (createDatabase streams).trace [] h1 List.nodup_nil
  have hmap : (outputOf (createDatabase streams)).map Person.id
      = emittedIds (createDatabase streams).trace := by
    unfold outputOf emittedIds
    rw [List.map_map]
    rfl
  rw [hmap]
  simpa using this

/-- The winning unit index of the last trace entry (the value of the C
variable lastFileIndex after the corresponding iterations, with the first
argument as its starting value). -/
def lastWidx : Option Nat → List TraceEntry → Option Nat
  | l, [] => l
  | _, e :: rest => lastWidx (some e.widx) rest

/-- The separating-space discipline actually implemented by createDatabase:
an entry is written without the separating space exactly when it is written,
the previous iteration processed a different unit, and some previous
iteration exists; iterations that drop duplicates still count. -/
def traceFmtOK : Option Nat → List TraceEntry → Bool
  | _, [] => true
  | last, e :: rest =>
    (e.noSpace == (e.emitted && ((!(last == some e.widx)) && last.isSome))) &&
      traceFmtOK (some e.widx) rest

theorem lastWidx_append (e : TraceEntry) : ∀ (t : List TraceEntry) (a : Option Nat),
    lastWidx a (t ++ [e]) = some e.widx := by
  intro t
  induction t with
  | nil => intro a; simp [lastWidx]
  | cons x rest ih =>
    intro a
    simp only [List.cons_append, lastWidx]
    exact ih _

theorem traceFmtOK_append (e : TraceEntry) : ∀ (t : List TraceEntry) (a : Option Nat),
    traceFmtOK a (t ++ [e]) =
      (traceFmtOK a t &&
        (e.noSpace == (e.emitted && ((!(lastWidx a t == some e.widx)) && (lastWidx a t).isSome)))) := by
  intro t
  induction t with
  | nil => intro a; simp [traceFmtOK, lastWidx]
  | cons x rest ih =>
    intro a
    simp only [List.cons_append, traceFmtOK, lastWidx, List.append_eq]
    rw [ih]
    cases hx : (x.noSpace == (x.emitted && ((!(a == some x.widx)) && a.isSome))) <;> simp

/-- Invariant: the trace obeys the separating-space discipline and
lastFileIndex is the winner of the most recent iteration. -/
def fmtInv (s : MergeState) : Prop :=
  traceFmtOK none s.trace = true ∧ s.lastFileIndex = lastWidx none s.trace

theorem fmtInv_step (s : MergeState) (i : Nat) (p : Person)
    (_hfs : findSmallest s.pending = some (i, p)) (h : fmtInv s) :
    fmtInv (mergeStep s i p) := by
  obtain ⟨h1, h2⟩ := h
  unfold fmtInv
  rw [mergeStep_trace, mergeStep_lastFileIndex, traceFmtOK_append, lastWidx_append]
  refine ⟨?_, rfl⟩
  rw [h1, ← h2]
  simp

theorem fmtInv_createDatabase (streams : List (List Person)) :
    fmtInv (createDatabase streams) := by
  unfold createDatabase
  apply mergeLoop_inv fmtInv fmtInv_step
  exact ⟨rfl, rfl⟩

theorem personLe_def (a b : Person) : personLe a b ↔ sLe a.name b.name := Iff.rfl

theorem personLe_trans {a b c : Person} (h1 : personLe a b) (h2 : personLe b c) :
    personLe a c :=
  (personLe_def a c).mpr (sLe_trans ((personLe_def a b).mp h1) ((personLe_def b c).mp h2))

/-- Priming a unit keeps it sorted: the cleaned name is a prefix of the
parsed name, hence no larger. -/
theorem cleanFirst_chain {u : List Person} (h : List.Chain' personLe u) :
    List.Chain' personLe (cleanFirst u) := by
  cases u with
  | nil => exact h
  | cons p rest =>
    cases rest with
    | nil => exact List.chain'_singleton _
    | cons q t =>
      rw [cleanFirst, List.chain'_cons]
      rw [List.chain'_cons] at h
      refine ⟨?_, h.2⟩
      have hclean : sLe (cleanName p.name) p.name := cleanName_sLe p.name
      exact (personLe_def _ q).mpr (sLe_trans hclean ((personLe_def p q).mp h.1))

/-- Sortedness invariant for the merge: every unit stays sorted, the output
so far is sorted, and the last written record is no larger than any
selectable current record. -/
def sortInv (s : MergeState) : Prop :=
  (∀ u ∈ s.pending, List.Chain' personLe u) ∧
    List.Chain' personLe (outputOf s) ∧
    (∀ r, (outputOf s).getLast? = some r →
      ∀ u ∈ s.pending, ∀ q, selectable u = some q → personLe r q)

theorem sortInv_step (s : MergeState) (i : Nat) (p : Person)
    (hfs : findSmallest s.pending = some (i, p)) (h : sortInv s) :
    sortInv (mergeStep s i p) := by
  obtain ⟨hA, hB, hC⟩ := h
  obtain ⟨rest, hrest, hname⟩ := findSmallest_spec hfs
  have hmin := findSmallest_min hfs
  have hmem : (p :: rest) ∈ s.pending := List.getElem?_mem hrest
  have hsel : selectable (p :: rest) = some p := by simp [selectable, hname]
  have hchain : List.Chain' personLe (p :: rest) := hA _ hmem
  have hpend' : (mergeStep s i p).pending = s.pending.set i rest := by
    rw [mergeStep_pending, popAt_of_eq hrest]
    rfl
  have hmem' : ∀ u ∈ (mergeStep s i p).pending, u ∈ s.pending ∨ u = rest := by
    intro u hu
    rw [hpend'] at hu
    exact List.mem_or_eq_of_mem_set hu
  have hA' : ∀ u ∈ (mergeStep s i p).pending, List.Chain' personLe u := by
    intro u hu
    rcases hmem' u hu with h1 | h2
    · exact hA u h1
    · rw [h2]; exact hchain.tail
  have hrest_head : ∀ q, selectable rest = some q → personLe p q := by
    intro q hq
    obtain ⟨t, ht, _⟩ := selectable_inv hq
    rw [ht] at hchain
    exact (List.chain'_cons.mp hchain).1
  refine ⟨hA', ?_, ?_⟩
  · rw [outputOf_mergeStep]
    by_cases hdup : isDuplicate p.id s.processedIDs
    · simpa [hdup] using hB
    · simp only [if_neg hdup]
      rw [List.chain'_append]
      refine ⟨hB, List.chain'_singleton p, ?_⟩
      intro x hx y hy
      simp only [List.head?_cons, Option.mem_def, Option.some.injEq] at hy
      rw [← hy]
      exact hC x hx _ hmem p hsel
  · intro r hr u hu q hq
    rw [outputOf_mergeStep] at hr
    by_cases hdup : isDuplicate p.id s.processedIDs
    · rw [if_pos hdup, List.append_nil] at hr
      rcases hmem' u hu with h1 | h2
      · exact hC r hr u h1 q hq
      · rw [h2] at hq
        exact personLe_trans (hC r hr _ hmem p hsel) (hrest_head q hq)
    · rw [if_neg hdup, List.getLast?_concat] at hr
      have hrp : r = p := by injection hr with h'; exact h'.symm
      rw [hrp]
      rcases hmem' u hu with h1 | h2
      · exact (personLe_def p q).mpr (hmin u h1 q hq)
      · rw [h2] at hq
        exact hrest_head q hq

/-- createDatabase preserves sortedness of the primed units through to the
output. -/
theorem sortInv_createDatabase (streams : List (List Person))
    (h : ∀ u ∈ streams, List.Chain' personLe u) :
    sortInv (createDatabase streams) := by
  unfold createDatabase
  apply mergeLoop_inv sortInv sortInv_step
  refine ⟨?_, ?_, ?_⟩
  · intro u hu
    simp only [initState, List.mem_map] at hu
    obtain ⟨v, hv, hveq⟩ := hu
    rw [← hveq]
    exact cleanFirst_chain (h v hv)
  · exact List.chain'_nil
  · intro r hr
    simp [initState, outputOf] at hr

theorem cleanFirst_length (u : List Person) : (cleanFirst u).length = u.length := by
  cases u <;> simp [cleanFirst]

theorem flatten_set_pop {l : List (List Person)} : ∀ {i : Nat} {p : Person}
    {rest : List Person}, l[i]? = some (p :: rest) →
    l.flatten.Perm (p :: (l.set i rest).flatten) := by
  induction l with
  | nil => intro i p rest h; simp at h
  | cons u t ih =>
    intro i p rest h
    cases i with
    | zero =>
      simp only [List.getElem?_cons_zero, Option.some.injEq] at h
      rw [h]
      simp only [List.set_cons_zero, List.flatten_cons, List.cons_append]
      exact List.Perm.refl _
    | succ m =>
      simp only [List.getElem?_cons_succ] at h
      have hperm := ih h
      simp only [List.set_cons_succ, List.flatten_cons]
      have h1 : (u ++ t.flatten).Perm (u ++ (p :: (t.set m rest).flatten)) :=
        hperm.append_left u
      have h2 : (u ++ (p :: (t.set m rest).flatten)).Perm
          (p :: (u ++ (t.set m rest).flatten)) := List.perm_middle
      exact h1.trans h2

/-- Multiset conservation: written plus dropped plus still-pending records
always equal the primed input records. -/
def permInv (target : Multiset Person) (s : MergeState) : Prop :=
  (↑(outputOf s) : Multiset Person) + ↑(droppedOf s) + ↑s.pending.flatten = target

theorem permInv_step (target : Multiset Person) (s : MergeState) (i : Nat) (p : Person)
    (hfs : findSmallest s.pending = some (i, p)) (h : permInv target s) :
    permInv target (mergeStep s i p) := by
  obtain ⟨rest, hrest, _⟩ := findSmallest_spec hfs
  unfold permInv at *
  have hpend' : (mergeStep s i p).pending = s.pending.set i rest := by
    rw [mergeStep_pending, popAt_of_eq hrest]
    rfl
  have hcoe := Multiset.coe_eq_coe.mpr (flatten_set_pop hrest)
  have hcons : (↑(p :: (s.pending.set i rest).flatten) : Multiset Person)
      = {p} + ↑(s.pending.set i rest).flatten := by
    rw [Multiset.singleton_add]
    rfl
  have hflatM : (↑s.pending.flatten : Multiset Person)
      = {p} + ↑(s.pending.set i rest).flatten := hcoe.trans hcons
  rw [outputOf_mergeStep, droppedOf_mergeStep, hpend']
  by_cases hdup : isDuplicate p.id s.processedIDs
  · rw [if_pos hdup, if_pos hdup, List.append_nil, ← h, hflatM]
    have hsplit : (↑(droppedOf s ++ [p]) : Multiset Person) = ↑(droppedOf s) + {p} := rfl
    rw [hsplit]
    abel
  · rw [if_neg hdup, if_neg hdup, List.append_nil, ← h, hflatM]
    have hsplit : (↑(outputOf s ++ [p]) : Multiset Person) = ↑(outputOf s) + {p} := rfl
    rw [hsplit]
    abel

/-- Nonempty-name invariant: every record still pending has a nonempty name
(so a unit is unselectable only when it is exhausted). -/
def namesInv (s : MergeState) : Prop :=
  ∀ u ∈ s.pending, ∀ p ∈ u, p.name ≠ []

theorem namesInv_step (s : MergeState) (i : Nat) (p : Person)
    (hfs : findSmallest s.pending = some (i, p)) (h : namesInv s) :
    namesInv (mergeStep s i p) := by
  obtain ⟨rest, hrest, _⟩ := findSmallest_spec hfs
  have hmem : (p :: rest) ∈ s.pending := List.getElem?_mem hrest
  intro u hu q hq
  rw [mergeStep_pending, popAt_of_eq hrest] at hu
  rcases List.mem_or_eq_of_mem_set hu with h1 | h2
  · exact h u h1 q hq
  · subst h2
    exact h _ hmem q (by simpa using List.mem_cons_of_mem p hq)

/-- When the loop has completed and all pending names are nonempty, every
unit is exhausted. -/
theorem pending_empty_of_terminated {s : MergeState}
    (hterm : findSmallest s.pending = none) (hnames : namesInv s) :
    ∀ u ∈ s.pending, u = [] := by
  intro u hu
  have hsel := (findSmallest_none_iff.mp hterm) u hu
  cases u with
  | nil => rfl
  | cons q t =>
    have hq : q.name ≠ [] := hnames _ hu q (List.mem_cons_self q t)
    simp [selectable, hq] at hsel

theorem flatten_nil_of_all_nil {l : List (List Person)}
    (h : ∀ u ∈ l, u = []) : l.flatten = [] := by
  induction l with
  | nil => rfl
  | cons u t ih =>
    rw [List.flatten_cons, h u (List.mem_cons_self u t),
      ih (fun v hv => h v (List.mem_cons_of_mem u hv))]
    rfl

/-- Merge completeness for well-named inputs: the written and the dropped
records together are a permutation of all primed input records. -/
theorem createDatabase_perm (streams : List (List Person))
    (h : ∀ u ∈ streams, ∀ p ∈ cleanFirst u, p.name ≠ []) :
    (outputOf (createDatabase streams) ++ droppedOf (createDatabase streams)).Perm
      (streams.map cleanFirst).flatten := by
  have hinv : permInv (↑(streams.map cleanFirst).flatten) (createDatabase streams) := by
    unfold createDatabase
    apply mergeLoop_inv (permInv _) (permInv_step _)
    unfold permInv
    have h1 : outputOf (initState streams) = [] := rfl
    have h2 : droppedOf (initState streams) = [] := rfl
    rw [h1, h2]
    have h3 : (initState streams).pending = streams.map cleanFirst := rfl
    rw [h3]
    simp
  have hnames : namesInv (createDatabase streams) := by
    unfold createDatabase
    apply mergeLoop_inv namesInv namesInv_step
    intro u hu q hq
    simp only [initState, List.mem_map] at hu
    obtain ⟨v, hv, hveq⟩ := hu
    exact h v hv q (hveq ▸ hq)
  have hterm := createDatabase_terminated streams
  have hempty := pending_empty_of_terminated hterm hnames
  have hflat : (createDatabase streams).pending.flatten = [] :=
    flatten_nil_of_all_nil hempty
  unfold permInv at hinv
  rw [hflat] at hinv
  rw [← Multiset.coe_eq_coe]
  have hsplit : (↑(outputOf (createDatabase streams) ++ droppedOf (createDatabase streams)) :
      Multiset Person) = ↑(outputOf (createDatabase streams)) + ↑(droppedOf (createDatabase streams)) := rfl
  rw [hsplit, ← hinv]
  have hnil : (↑([] : List Person) : Multiset Person) = 0 := rfl
  rw [hnil]
  abel

/-- Completeness as counted records: written plus dropped equals the total
number of parsed input records. -/
theorem createDatabase_count (streams : List (List Person))
    (h : ∀ u ∈ streams, ∀ p ∈ cleanFirst u, p.name ≠ []) :
    (outputOf (createDatabase streams)).length + (droppedOf (createDatabase streams)).length
      = pendingSize streams := by
  have hperm := createDatabase_perm streams h
  have hlen := hperm.length_eq
  rw [List.length_append] at hlen
  rw [hlen, List.length_flatten]
  unfold pendingSize
  rw [List.map_map]
  congr 1
  apply List.map_congr_left
  intro u _
  exact cleanFirst_length u

/-- Stuck-slot invariant: a unit whose current record has an empty name is
never selected, so its pending list never changes. -/
def stuckInv (i : Nat) (v : List Person) (s : MergeState) : Prop :=
  s.pending[i]? = some v ∧ ∀ q, v.head? = some q → q.name = []

theorem stuckInv_step (i : Nat) (v : List Person) (s : MergeState) (j : Nat) (p : Person)
    (hfs : findSmallest s.pending = some (j, p)) (h : stuckInv i v s) :
    stuckInv i v (mergeStep s j p) := by
  obtain ⟨hidx, hhead⟩ := h
  obtain ⟨rest, hrest, hname⟩ := findSmallest_spec hfs
  have hne : j ≠ i := by
    intro hji
    rw [hji, hidx] at hrest
    injection hrest with hv
    have := hhead p (by rw [hv]; rfl)
    exact hname this
  refine ⟨?_, hhead⟩
  rw [mergeStep_pending, popAt_of_eq hrest]
  rw [List.getElem?_set_ne hne]
  exact hidx

/-- A unit whose primed current record has an empty name keeps its entire
pending list untouched through the whole merge. -/
theorem createDatabase_stuck (streams : List (List Person)) (i : Nat)
    (v : List Person) (hv : (streams.map cleanFirst)[i]? = some v)
    (hhead : ∀ q, v.head? = some q → q.name = []) :
    (createDatabase streams).pending[i]? = some v := by
  have hinv : stuckInv i v (createDatabase streams) := by
    unfold createDatabase
    apply mergeLoop_inv (stuckInv i v) (stuckInv_step i v)
    exact ⟨hv, hhead⟩
  exact hinv.1

/-- A single shared gene code for the concrete examples. -/
def gX : List Char := ['x']

/-- Concrete example records used by witnesses and counterexamples. -/
def pAlice : Person := ⟨['A','l','i','c','e'], ['1','1','1'], gX, gX, gX, gX, gX⟩

def pBob : Person := ⟨['B','o','b'], ['2','2','2'], gX, gX, gX, gX, gX⟩

def pCarol : Person := ⟨['C','a','r','o','l'], ['3','3','3'], gX, gX, gX, gX, gX⟩

def pZed1 : Person := ⟨['Z','e','d'], ['1'], ['a'], gX, gX, gX, gX⟩

def pAnn1 : Person := ⟨['A','n','n'], ['1'], ['b'], gX, gX, gX, gX⟩

def pAnn2 : Person := ⟨['A','n','n'], ['1'], gX, gX, gX, gX, gX⟩

def pBobSp : Person := ⟨['B','o','b',' '], ['2'], gX, gX, gX, gX, gX⟩

def pSpace : Person := ⟨[' '], ['9'], gX, gX, gX, gX, gX⟩

def pHidden : Person := ⟨['H','i','d'], ['7'], gX, gX, gX, gX, gX⟩

/-- Claim C1: for every run of Unify (createDatabase) on input streams that
are each already sorted by name, the records written to the unified database
appear in non-decreasing byte-wise lexicographic order of name: every
adjacent pair (r1, r2) of written records satisfies r1.name not greater than
r2.name under strcmp. -/
theorem claim_C1 (streams : List (List Person))
    (h : ∀ u ∈ streams, List.Chain' personLe u) :
    List.Chain' personLe (outputOf (createDatabase streams)) :=
  (sortInv_createDatabase streams h).2.1

theorem claim_C1_witness :
    (∀ u ∈ [[pAlice, pCarol], [pBob]], List.Chain' personLe u) ∧
      List.Chain' personLe (outputOf (createDatabase [[pAlice, pCarol], [pBob]])) := by
  have hsorted : ∀ u ∈ [[pAlice, pCarol], [pBob]], List.Chain' personLe u := by
    intro u hu
    simp only [List.mem_cons, List.not_mem_nil, or_false] at hu
    rcases hu with h | h <;> subst h
    · exact List.chain'_cons.mpr ⟨by decide, List.chain'_singleton _⟩
    · exact List.chain'_singleton _
  exact ⟨hsorted, claim_C1 [[pAlice, pCarol], [pBob]] hsorted⟩

/-- Claim C2 counterexample: stream A (earlier) holds Zed with id 1, stream B
(later) holds Ann with the same id 1 but a different gene; the merge
encounters Ann first because her name is smaller, so the output contains the
later-indexed stream B version, contradicting the claim that A wins. -/
theorem claim_C2_counterexample :
    outputOf (createDatabase [[pZed1], [pAnn1]]) = [pAnn1] ∧
      pAnn1.id = pZed1.id ∧ pAnn1 ≠ pZed1 := by decide

/-- Claim C2 (amended): no two records written by Unify share the same id,
and when an id occurs in more than one processed record, the record written
is the first one the merge encounters in its processing order (which follows
name order with ties to earlier streams, not stream index order): every
trace entry is written exactly when its id has not been written before. -/
theorem claim_C2_amended (streams : List (List Person)) :
    traceOK [] (createDatabase streams).trace = true ∧
      ((outputOf (createDatabase streams)).map Person.id).Nodup :=
  ⟨(dedupInv_createDatabase streams).1, createDatabase_nodup_ids streams⟩

/-- Claim C3 (code divergence): the merge cleans only the initial parse of
each stream; the refill parse calls cleanName only inside its failure branch
(immediately before the record is wiped), and getPotentialDonors never calls
it, so a record parsed on refill is written with its trailing whitespace and
the filter returns records with uncleaned names. -/
theorem claim_C3_divergence :
    (outputOf (createDatabase [[pAnn2, pBobSp]])).map Person.name
        = [['A','n','n'], ['B','o','b',' ']] ∧
      cleanName ['B','o','b',' '] = ['B','o','b'] ∧
      (getPotentialDonors [pBobSp] pAnn2 0).donors.map Person.name
        = [['B','o','b',' ']] := by decide

/-- Claim C4: for every database stream, query record and threshold,
FindCandidates (getPotentialDonors) returns exactly the parsed records whose
gene match count reaches the threshold, in stream encounter order, and
reports their number through the size out-parameter. -/
theorem claim_C4 (database : List Person) (patient : Person) (min_match : Int) :
    (getPotentialDonors database patient min_match).donors
        = database.filter (donorKeep patient min_match) ∧
      (getPotentialDonors database patient min_match).size
        = (getPotentialDonors database patient min_match).donors.length := by
  refine ⟨getPotentialDonors_donors database patient min_match, ?_⟩
  rw [getPotentialDonors_size, getPotentialDonors_donors]

theorem filter_replicate_keep :
    ((List.replicate (MAX_PERSONS + 1) pAlice).filter (donorKeep pAlice 0)).length
      = MAX_PERSONS + 1 := by
  rw [List.filter_eq_self.mpr]
  · exact List.length_replicate _ _
  · intro a ha
    rw [List.eq_of_mem_replicate ha]
    decide

/-- Claim C5 counterexample: a database of MAX_PERSONS + 1 records that all
meet the threshold makes the donor scan store past the end of its
MAX_PERSONS-entry buffer, so the result size is bounded by the fixed buffer
capacity, not only by available memory. -/
theorem claim_C5_counterexample :
    (getPotentialDonors (List.replicate (MAX_PERSONS + 1) pAlice) pAlice 0).oobWrite
      = true := by
  cases hoob : (getPotentialDonors (List.replicate (MAX_PERSONS + 1) pAlice) pAlice 0).oobWrite
  · have hle := (getPotentialDonors_oob (List.replicate (MAX_PERSONS + 1) pAlice)
      pAlice 0).mp hoob
    rw [filter_replicate_keep] at hle
    omega
  · rfl

/-- Claim C5 (amended): the candidate scan computes exactly the records that
meet the threshold, but its buffer is a fixed MAX_PERSONS-entry allocation:
all candidates are stored in bounds exactly when at most MAX_PERSONS records
meet the threshold; past that the store is out of bounds. -/
theorem claim_C5_amended (database : List Person) (patient : Person) (min_match : Int) :
    (getPotentialDonors database patient min_match).donors
        = database.filter (donorKeep patient min_match) ∧
      ((getPotentialDonors database patient min_match).oobWrite = false ↔
        (database.filter (donorKeep patient min_match)).length ≤ MAX_PERSONS) :=
  ⟨getPotentialDonors_donors database patient min_match,
    getPotentialDonors_oob database patient min_match⟩

/-- Claim C6 counterexample: a single stream whose only record has an
all-whitespace name; its cleaned name is empty, so the record is neither
written nor dropped as a duplicate, and the output count 0 differs from
total records 1 minus duplicate count 0. -/
theorem claim_C6_counterexample :
    outputOf (createDatabase [[pSpace]]) = [] ∧
      droppedOf (createDatabase [[pSpace]]) = [] ∧
      pendingSize [[pSpace]] = 1 := by decide

/-- Claim C6 (amended): provided every record held in a merge slot has a
nonempty name (in particular no stream whose first record cleans to the
empty name), the written and dropped records together are a permutation of
all input records (with the first-record cleanup applied), and the output
count equals the total input count minus the duplicate count. -/
theorem claim_C6_amended (streams : List (List Person))
    (h : ∀ u ∈ streams, ∀ p ∈ cleanFirst u, p.name ≠ []) :
    (outputOf (createDatabase streams) ++ droppedOf (createDatabase streams)).Perm
        (streams.map cleanFirst).flatten ∧
      (outputOf (createDatabase streams)).length
        = pendingSize streams - (droppedOf (createDatabase streams)).length := by
  refine ⟨createDatabase_perm streams h, ?_⟩
  have := createDatabase_count streams h
  omega

theorem claim_C6_witness :
    (∀ u ∈ [[pAlice, pCarol], [pBob, pCarol]], ∀ p ∈ cleanFirst u, p.name ≠ []) ∧
      ((outputOf (createDatabase [[pAlice, pCarol], [pBob, pCarol]])
          ++ droppedOf (createDatabase [[pAlice, pCarol], [pBob, pCarol]])).Perm
        ([[pAlice, pCarol], [pBob, pCarol]].map cleanFirst).flatten ∧
      (outputOf (createDatabase [[pAlice, pCarol], [pBob, pCarol]])).length
        = pendingSize [[pAlice, pCarol], [pBob, pCarol]]
          - (droppedOf (createDatabase [[pAlice, pCarol], [pBob, pCarol]])).length) :=
  ⟨by decide, claim_C6_amended [[pAlice, pCarol], [pBob, pCarol]] (by decide)⟩

/-- Claim C7: the duplicate-id store has fixed capacity MAX_UNITS = 100 (the
maximum number of input sources, not the total record count) and each newly
written id is appended without a capacity check, so the store write goes out
of bounds exactly when more than MAX_UNITS unique ids are written. -/
theorem claim_C7 (streams : List (List Person)) :
    (createDatabase streams).oobWrite = true ↔
      MAX_UNITS < (outputOf (createDatabase streams)).length := by
  obtain ⟨h1, h2⟩ := oobInv_createDatabase streams
  rw [h1, h2]
  simp

/-- Claim C8 counterexample: a run with a single stream and a single record;
that record is the first of its source run, yet it is written with the
separating space (lastFileIndex is still -1 at that iteration), contradicting
the claim that the first record of every run omits the space. -/
theorem claim_C8_counterexample :
    ((createDatabase [[pAlice]]).trace.filter (fun e => e.emitted)).map
        (fun e => e.noSpace) = [false] := by decide

/-- Claim C8 (amended): a record is written without the separating space
exactly when its iteration is not the first iteration of the merge and its
winning stream differs from the winning stream of the immediately preceding
iteration, counting iterations that dropped duplicates; in particular the
record of the very first iteration always gets the space. -/
theorem claim_C8_amended (streams : List (List Person)) :
    traceFmtOK none (createDatabase streams).trace = true :=
  (fmtInv_createDatabase streams).1

/-- Claim C9: for the same database and query, a strictly larger minimum
match threshold yields a candidate list that is a subset of the candidate
list for the smaller threshold. -/
theorem claim_C9 (database : List Person) (patient : Person) (m1 m2 : Int)
    (h : m1 < m2) :
    (getPotentialDonors database patient m2).donors ⊆
      (getPotentialDonors database patient m1).donors := by
  rw [getPotentialDonors_donors, getPotentialDonors_donors]
  intro a ha
  rw [List.mem_filter] at ha ⊢
  refine ⟨ha.1, ?_⟩
  have h2 := ha.2
  simp only [donorKeep, decide_eq_true_eq] at h2 ⊢
  omega

theorem claim_C9_witness :
    (0 : Int) < 1 ∧
      (getPotentialDonors [pAlice] pAlice 1).donors ⊆
        (getPotentialDonors [pAlice] pAlice 0).donors :=
  ⟨by decide, claim_C9 [pAlice] pAlice 0 1 (by decide)⟩

/-- Claim C10: if a stream yields a record whose name has no non-whitespace
character before its first digit, the cleanup empties the name; the merge
then never selects that unit again, so its remaining records are silently
absent from the output, and the loop still terminates. -/
theorem claim_C10 (streams : List (List Person)) (i : Nat) (p : Person)
    (rest : List Person) (hrec : streams[i]? = some (p :: rest))
    (hsp : ∀ c ∈ p.name.takeWhile notDigit, isSpaceChar c) :
    cleanName p.name = [] ∧
      (createDatabase streams).pending[i]? =
        some ({ p with name := cleanName p.name } :: rest) ∧
      findSmallest (createDatabase streams).pending = none := by
  have hclean : cleanName p.name = [] := cleanName_empty_of_space hsp
  refine ⟨hclean, ?_, createDatabase_terminated streams⟩
  apply createDatabase_stuck
  · rw [List.getElem?_map, hrec]
    rfl
  · intro q hq
    simp only [List.head?_cons, Option.some.injEq] at hq
    rw [← hq]
    exact hclean

theorem claim_C10_witness :
    (([[pSpace, pHidden], [pBob]] : List (List Person))[0]? = some (pSpace :: [pHidden]) ∧
      (∀ c ∈ pSpace.name.takeWhile notDigit, isSpaceChar c)) ∧
      (cleanName pSpace.name = [] ∧
        (createDatabase [[pSpace, pHidden], [pBob]]).pending[0]? =
          some ({ pSpace with name := cleanName pSpace.name } :: [pHidden]) ∧
        findSmallest (createDatabase [[pSpace, pHidden], [pBob]]).pending = none) :=
  ⟨⟨by decide, by decide⟩,
    claim_C10 [[pSpace, pHidden], [pBob]] 0 pSpace [pHidden] (by decide) (by decide)⟩
